import Mathlib

/-!
Shallow embedding of `src/equal_share/equal_share.py` — the fair-share /
debt-settlement engine (`to_decimal`, `compute_shares_and_nets`,
`settle_transfers`) — together with proofs of the specified properties.

Modelling conventions:
* Python `Decimal` values are modelled as exact rationals (`ℚ`); the
  `Decimal` operations used by the code (construction, comparison,
  multiplication, `to_integral_value`) are exact at the magnitudes involved.
* Python integers are `ℤ`; Python `//` and `%` are `Int.fdiv` / `Int.fmod`,
  which have the floor-division semantics of Python.
* The pandas dataframe produced by `compute_shares_and_nets` is modelled as
  the list of its rows.
* A raw `paid` cell is either a value parseable as a number or not; the
  `try/except` in `to_decimal` becomes a total function on that sum type.
-/

namespace EqualShare

/-- A raw `paid` value as supplied by the caller: either something for which
`Decimal(str(x))` succeeds (with value `q`), or a value it cannot parse. -/
inductive RawAmount : Type
  | num (q : ℚ)
  | unparseable
deriving DecidableEq

/-- Python helper `to_decimal`: safely convert the input to a `Decimal` via the string
constructor; on any parse failure return `Decimal(0)`. -/
def to_decimal : RawAmount → ℚ
  | .num q => q
  | .unparseable => 0

/-- Rounding `int(q.to_integral_value(rounding=ROUND_HALF_UP))`: round to the nearest
integer, ties away from zero (`ROUND_HALF_UP` in Python). -/
def round_half_up (q : ℚ) : ℤ :=
  if 0 ≤ q then ⌊q + 1 / 2⌋ else -⌊1 / 2 - q⌋

/-- One input row `{name, paid}`; a missing `name` key is `none`. -/
structure InputPerson : Type where
  name : Option String
  paid : RawAmount
deriving DecidableEq

/-- Name cleanup `(p.get("name") or "").strip() or "Person"`. -/
def clean_name (name : Option String) : String :=
  let s := (name.getD "").trim
  if s = "" then "Person" else s

/-- The conversion of one raw paid amount to integer smallest units inside
`compute_shares_and_nets`: clamp negatives to zero, scale by the integer
multiplier, round half up. -/
def paid_cents_of (multiplier : ℤ) (x : RawAmount) : ℤ :=
  let paid_raw := to_decimal x
  let clamped := if paid_raw < 0 then 0 else paid_raw
  round_half_up (clamped * (multiplier : ℚ))

/-- One row of the result dataframe of `compute_shares_and_nets`. -/
structure Row : Type where
  name : String
  paid_cents : ℤ
  share_cents : ℤ
  net_cents : ℤ
deriving DecidableEq

/-- Lines 60–63 of `compute_shares_and_nets`:
`base_share = total_cents // n`, `remainder = total_cents % n`,
`shares = [base_share + (1 if i < remainder else 0) for i in range(n)]`. -/
def fair_shares (total_cents : ℤ) (n : ℕ) : List ℤ :=
  let base_share : ℤ := total_cents.fdiv n
  let remainder : ℤ := total_cents.fmod n
  (List.range n).map fun (i : ℕ) => base_share + if (i : ℤ) < remainder then 1 else 0

/-- The `rows` list built by the first loop of `compute_shares_and_nets`:
one `(name, paid_cents)` pair per input person. -/
def build_rows (people : List InputPerson) (multiplier : ℤ) : List (String × ℤ) :=
  people.map fun p => (clean_name p.name, paid_cents_of multiplier p.paid)

/-- Sum `total_cents = sum(r["paid_cents"] for r in rows)` — also the total debt
or credit of a settlement partition. -/
def amountsSum (l : List (String × ℤ)) : ℤ :=
  (l.map (·.2)).sum

/-- Main routine `compute_shares_and_nets(people, rounding_unit)`: multiplier from the
rounding unit; per-person paid amounts clamped and scaled to integer units
(`build_rows`); fair shares via `fair_shares`; nets `paid - share`.  Returns
`(df, total_cents, multiplier, shares)` with the dataframe modelled as its
list of rows. -/
def compute_shares_and_nets (people : List InputPerson) (rounding_unit : ℚ) :
    List Row × ℤ × ℤ × List ℤ :=
  let multiplier : ℤ := round_half_up (1 / rounding_unit)
  let rows : List (String × ℤ) := build_rows people multiplier
  if rows.isEmpty then ([], 0, multiplier, [])
  else
    let total_cents : ℤ := amountsSum rows
    let n : ℕ := rows.length
    let shares : List ℤ := fair_shares total_cents n
    let out : List Row :=
      (rows.zip shares).map fun rs =>
        { name := rs.1.1, paid_cents := rs.1.2, share_cents := rs.2,
          net_cents := rs.1.2 - rs.2 }
    (out, total_cents, multiplier, shares)

/-- The debtor partition built by `settle_transfers`: rows with `net < 0`,
in original order, as `(name, -net)`. -/
def debtorsOf (rows : List Row) : List (String × ℤ) :=
  rows.filterMap fun r => if r.net_cents < 0 then some (r.name, -r.net_cents) else none

/-- The creditor partition built by `settle_transfers`: rows with `net > 0`,
in original order, as `(name, net)`. -/
def creditorsOf (rows : List Row) : List (String × ℤ) :=
  rows.filterMap fun r => if 0 < r.net_cents then some (r.name, r.net_cents) else none

/-- The `while i < len(debtors) and j < len(creditors)` loop of
`settle_transfers`.  Each iteration pays `min(d_amt, c_amt)`, records the
transfer when positive, and advances the debtor cursor when its remaining
debt reaches zero and the creditor cursor when its remaining credit reaches
zero.  Since `pay = min d_amt c_amt`, the branch `d_amt ≤ c_amt` is exactly
`d_amt - pay = 0` (the debtor cursor advances) and its negation is exactly
`c_amt - pay = 0` (the creditor cursor advances). -/
def settleLoop :
    List (String × ℤ) → List (String × ℤ) → List (String × String × ℤ)
  | [], _ => []
  | _ :: _, [] => []
  | (d_name, d_amt) :: ds, (c_name, c_amt) :: cs =>
    let pay := min d_amt c_amt
    let recorded : List (String × String × ℤ) :=
      if 0 < pay then [(d_name, c_name, pay)] else []
    if d_amt ≤ c_amt then
      if c_amt - pay = 0 then recorded ++ settleLoop ds cs
      else recorded ++ settleLoop ds ((c_name, c_amt - pay) :: cs)
    else
      recorded ++ settleLoop ((d_name, d_amt - pay) :: ds) cs
termination_by d c => d.length + c.length
decreasing_by
  all_goals simp_arith [List.length_cons]

/-- Settlement routine `settle_transfers(df)`: greedy min-cashflow settlement; returns the list
of `(debtor_name, creditor_name, amount_cents)` transfers. -/
def settle_transfers (rows : List Row) : List (String × String × ℤ) :=
  settleLoop (debtorsOf rows) (creditorsOf rows)

/-- Fuel-indexed version of the settlement loop: `none` means the iteration
budget ran out before either cursor exhausted its partition. -/
def settleLoopFuel :
    ℕ → List (String × ℤ) → List (String × ℤ) → Option (List (String × String × ℤ))
  | _, [], _ => some []
  | _, _ :: _, [] => some []
  | 0, _ :: _, _ :: _ => none
  | fuel + 1, (d_name, d_amt) :: ds, (c_name, c_amt) :: cs =>
    let pay := min d_amt c_amt
    let recorded : List (String × String × ℤ) :=
      if 0 < pay then [(d_name, c_name, pay)] else []
    let rest :=
      if d_amt ≤ c_amt then
        if c_amt - pay = 0 then settleLoopFuel fuel ds cs
        else settleLoopFuel fuel ds ((c_name, c_amt - pay) :: cs)
      else
        settleLoopFuel fuel ((d_name, d_amt - pay) :: ds) cs
    rest.map (recorded ++ ·)

/-- The whole engine as called by the page: allocation followed by
settlement. -/
def engine (people : List InputPerson) (rounding_unit : ℚ) :
    (List Row × ℤ × ℤ × List ℤ) × List (String × String × ℤ) :=
  let r := compute_shares_and_nets people rounding_unit
  (r, settle_transfers r.1)

/-- Initial net balance associated with a name: the sum of `net_cents` over
the rows carrying that name. -/
def initBalance (rows : List Row) (x : String) : ℤ :=
  ((rows.filter fun r => r.name = x).map (·.net_cents)).sum

/-- Settling direction of one transfer `(debtor, creditor, amount)`: the
debtor hands over money, raising its (negative) net by `amount`; the
creditor is paid, lowering its (positive) net by `amount`. -/
def applyTransfer (f : String → ℤ) (t : String × String × ℤ) : String → ℤ :=
  fun x => f x + (if t.1 = x then t.2.2 else 0) - (if t.2.1 = x then t.2.2 else 0)

/-- Apply a list of transfers, in order, to a balance assignment. -/
def applyTransfers (ts : List (String × String × ℤ)) (f : String → ℤ) : String → ℤ :=
  ts.foldl applyTransfer f

/-- The application direction as the spec sentence words it: subtract the
amount from the balance of the debtor, add it to that of the creditor. -/
def applyTransferSpec (f : String → ℤ) (t : String × String × ℤ) : String → ℤ :=
  fun x => f x - (if t.1 = x then t.2.2 else 0) + (if t.2.1 = x then t.2.2 else 0)

/-- Apply a list of transfers in the direction the spec sentence states. -/
def applyTransfersSpec (ts : List (String × String × ℤ)) (f : String → ℤ) : String → ℤ :=
  ts.foldl applyTransferSpec f

/-- Total amount paid out by name `x` across a transfer list. -/
def paidBy (ts : List (String × String × ℤ)) (x : String) : ℤ :=
  ((ts.filter fun t => t.1 = x).map (·.2.2)).sum

/-- Total amount received by name `x` across a transfer list. -/
def recvBy (ts : List (String × String × ℤ)) (x : String) : ℤ :=
  ((ts.filter fun t => t.2.1 = x).map (·.2.2)).sum

/-- Amount owed to / by name `x` inside one partition list. -/
def owedTo (l : List (String × ℤ)) (x : String) : ℤ :=
  ((l.filter fun p => p.1 = x).map (·.2)).sum

/-! ### Generic list arithmetic lemmas -/

lemma sum_map_add {α : Type} (l : List α) (f g : α → ℤ) :
    (l.map fun a => f a + g a).sum = (l.map f).sum + (l.map g).sum := by
  induction l with
  | nil => simp
  | cons a l ih => simp only [List.map_cons, List.sum_cons, ih]; ring

lemma sum_map_const {α : Type} (l : List α) (c : ℤ) :
    (l.map fun _ => c).sum = l.length * c := by
  induction l with
  | nil => simp
  | cons a l ih =>
    simp only [List.map_cons, List.sum_cons, ih, List.length_cons]
    push_cast
    ring

lemma sum_range_indicator (n : ℕ) (r : ℤ) (h0 : 0 ≤ r) (h1 : r ≤ (n : ℤ)) :
    ((List.range n).map fun (i : ℕ) => if (i : ℤ) < r then (1 : ℤ) else 0).sum = r := by
  induction n with
  | zero =>
    simp only [List.range_zero, List.map_nil, List.sum_nil]
    omega
  | succ n ih =>
    rw [List.range_succ, List.map_append, List.sum_append]
    by_cases hc : r ≤ (n : ℤ)
    · have hnr : ¬ ((n : ℤ) < r) := by omega
      simp [ih hc, hnr]
    · have hall : ∀ i ∈ List.range n,
          (if (i : ℤ) < r then (1 : ℤ) else 0) = (fun (_ : ℕ) => (1 : ℤ)) i := by
        intro i hi
        have hin : i < n := List.mem_range.mp hi
        have : (i : ℤ) < r := by
          have : (i : ℤ) < (n : ℤ) := by exact_mod_cast hin
          omega
        simp [this]
      rw [List.map_congr_left hall, sum_map_const, List.length_range]
      have hlt : (n : ℤ) < r := by omega
      simp only [List.map_cons, List.map_nil, List.sum_cons, List.sum_nil, hlt, if_true]
      push_cast at h1
      omega

/-! ### Facts about `fair_shares` -/

lemma fair_shares_length (t : ℤ) (n : ℕ) : (fair_shares t n).length = n := by
  simp [fair_shares]

lemma fair_shares_sum (t : ℤ) (n : ℕ) (hn : 0 < n) : (fair_shares t n).sum = t := by
  have hnz : (0 : ℤ) < (n : ℤ) := by exact_mod_cast hn
  have hmod0 : 0 ≤ t.fmod n := Int.fmod_nonneg' t hnz
  have hmodlt : t.fmod n < (n : ℤ) := Int.fmod_lt_of_pos t hnz
  unfold fair_shares
  rw [sum_map_add, sum_map_const, List.length_range,
    sum_range_indicator n (t.fmod n) hmod0 (le_of_lt hmodlt)]
  have h := Int.fmod_add_fdiv t n
  linarith

lemma mem_fair_shares {t : ℤ} {n : ℕ} {s : ℤ} (h : s ∈ fair_shares t n) :
    s = t.fdiv n ∨ s = t.fdiv n + 1 := by
  unfold fair_shares at h
  simp only [List.mem_map, List.mem_range] at h
  obtain ⟨i, _, hi⟩ := h
  by_cases hc : (i : ℤ) < t.fmod n
  · right; simp [hc] at hi; omega
  · left; simp [hc] at hi; omega

/-! ### Column projections of the result dataframe -/

lemma df_columns (rows : List (String × ℤ)) (shares : List ℤ)
    (h : rows.length = shares.length) :
    (((rows.zip shares).map fun rs =>
        ({ name := rs.1.1, paid_cents := rs.1.2, share_cents := rs.2,
           net_cents := rs.1.2 - rs.2 } : Row)).map (·.share_cents) = shares) ∧
    (((rows.zip shares).map fun rs =>
        ({ name := rs.1.1, paid_cents := rs.1.2, share_cents := rs.2,
           net_cents := rs.1.2 - rs.2 } : Row)).map (·.paid_cents) = rows.map (·.2)) ∧
    (((rows.zip shares).map fun rs =>
        ({ name := rs.1.1, paid_cents := rs.1.2, share_cents := rs.2,
           net_cents := rs.1.2 - rs.2 } : Row)).map (·.net_cents)).sum
      = (rows.map (·.2)).sum - shares.sum := by
  induction rows generalizing shares with
  | nil =>
    cases shares with
    | nil => simp
    | cons b bs => simp at h
  | cons a as ih =>
    cases shares with
    | nil => simp at h
    | cons b bs =>
      have hlen : as.length = bs.length := by simpa using h
      obtain ⟨ih1, ih2, ih3⟩ := ih bs hlen
      refine ⟨?_, ?_, ?_⟩
      · simp [List.zip_cons_cons, ih1]
      · simp [List.zip_cons_cons, ih2]
      · simp only [List.zip_cons_cons, List.map_cons, List.sum_cons, ih3]
        ring

/-- Unfolding equation of `compute_shares_and_nets` for a non-empty input. -/
lemma compute_shares_and_nets_eq (people : List InputPerson) (u : ℚ)
    (h : people ≠ []) :
    compute_shares_and_nets people u =
      (((build_rows people (round_half_up (1 / u))).zip
          (fair_shares (amountsSum (build_rows people (round_half_up (1 / u))))
            (build_rows people (round_half_up (1 / u))).length)).map
          (fun rs =>
            { name := rs.1.1, paid_cents := rs.1.2, share_cents := rs.2,
              net_cents := rs.1.2 - rs.2 }),
        amountsSum (build_rows people (round_half_up (1 / u))),
        round_half_up (1 / u),
        fair_shares (amountsSum (build_rows people (round_half_up (1 / u))))
          (build_rows people (round_half_up (1 / u))).length) := by
  have hne : (build_rows people (round_half_up (1 / u))).isEmpty = false := by
    cases people with
    | nil => exact absurd rfl h
    | cons p ps => simp [build_rows]
  unfold compute_shares_and_nets
  simp only [hne, Bool.false_eq_true, if_false]

/-- C1: for every list of participants and every rounding unit,
`compute_shares_and_nets` produces integer shares whose sum equals the total
of the integer paid amounts exactly, and the per-participant nets sum to
exactly zero — including when the total is not divisible by the headcount. -/
theorem shares_conserve_total (people : List InputPerson) (u : ℚ) :
    ((compute_shares_and_nets people u).1.map (·.share_cents)).sum
        = (compute_shares_and_nets people u).2.1 ∧
    (compute_shares_and_nets people u).2.1
        = ((compute_shares_and_nets people u).1.map (·.paid_cents)).sum ∧
    ((compute_shares_and_nets people u).1.map (·.net_cents)).sum = 0 := by
  by_cases hp : people = []
  · subst hp; simp [compute_shares_and_nets, build_rows]
  · rw [compute_shares_and_nets_eq people u hp]
    set rows : List (String × ℤ) := build_rows people (round_half_up (1 / u)) with hrows
    set total : ℤ := amountsSum rows with htotal
    have hn : 0 < rows.length := by
      cases people with
      | nil => exact absurd rfl hp
      | cons p ps => simp [hrows, build_rows]
    have hlen : rows.length = (fair_shares total rows.length).length := by
      rw [fair_shares_length]
    obtain ⟨h1, h2, h3⟩ := df_columns rows (fair_shares total rows.length) hlen
    have hsum := fair_shares_sum total rows.length hn
    have h4 : (List.map (fun x => x.2) rows).sum = total := rfl
    refine ⟨?_, ?_, ?_⟩
    · rw [h1, hsum]
    · rw [h2]; exact h4.symm
    · rw [h3, hsum, h4]; ring

/-- C3: with at least one participant and a non-negative total, the computed
shares follow the floor-division rule — `base = total // n` with `base + 1`
for the first `total % n` participants in input order and `base` for the
rest — and consequently any two shares differ by at most one unit. -/
theorem shares_follow_base_remainder_rule (people : List InputPerson) (u : ℚ)
    (hne : people ≠ []) (htot : 0 ≤ (compute_shares_and_nets people u).2.1) :
    (∀ (i : ℕ) (hi : i < (compute_shares_and_nets people u).2.2.2.length),
        (compute_shares_and_nets people u).2.2.2[i] =
          if (i : ℤ) < (compute_shares_and_nets people u).2.1.fmod people.length
          then (compute_shares_and_nets people u).2.1.fdiv people.length + 1
          else (compute_shares_and_nets people u).2.1.fdiv people.length) ∧
    (∀ s ∈ (compute_shares_and_nets people u).1.map (·.share_cents),
      ∀ t ∈ (compute_shares_and_nets people u).1.map (·.share_cents),
        s - t ≤ 1) := by
  clear htot
  rw [compute_shares_and_nets_eq people u hne]
  set rows : List (String × ℤ) := build_rows people (round_half_up (1 / u)) with hrows
  set total : ℤ := amountsSum rows with htotal
  have hlenp : rows.length = people.length := by simp [hrows, build_rows]
  have hlen : rows.length = (fair_shares total rows.length).length := by
    rw [fair_shares_length]
  obtain ⟨h1, _, _⟩ := df_columns rows (fair_shares total rows.length) hlen
  constructor
  · intro i hi
    show (fair_shares total rows.length)[i] = _
    have hi' : i < rows.length := by
      rw [hlen]; simpa using hi
    simp only [fair_shares, List.getElem_map, List.getElem_range, hlenp]
    by_cases hc : (i : ℤ) < total.fmod people.length
    · simp [hc]
    · simp [hc]
  · intro s hs t ht
    rw [h1] at hs ht
    rcases mem_fair_shares hs with h | h <;> rcases mem_fair_shares ht with h' | h' <;>
      omega

/-- Witness for C3 at one participant who paid 5 with rounding unit 1. -/
theorem shares_follow_base_remainder_rule_witness :
    ([⟨some "A", RawAmount.num 5⟩] : List InputPerson) ≠ [] ∧
    0 ≤ (compute_shares_and_nets [⟨some "A", RawAmount.num 5⟩] 1).2.1 ∧
    ((∀ (i : ℕ)
        (hi : i < (compute_shares_and_nets [⟨some "A", RawAmount.num 5⟩] 1).2.2.2.length),
        (compute_shares_and_nets [⟨some "A", RawAmount.num 5⟩] 1).2.2.2[i] =
          if (i : ℤ) < (compute_shares_and_nets [⟨some "A", RawAmount.num 5⟩] 1).2.1.fmod
              ([⟨some "A", RawAmount.num 5⟩] : List InputPerson).length
          then (compute_shares_and_nets [⟨some "A", RawAmount.num 5⟩] 1).2.1.fdiv
              ([⟨some "A", RawAmount.num 5⟩] : List InputPerson).length + 1
          else (compute_shares_and_nets [⟨some "A", RawAmount.num 5⟩] 1).2.1.fdiv
              ([⟨some "A", RawAmount.num 5⟩] : List InputPerson).length) ∧
      (∀ s ∈ (compute_shares_and_nets [⟨some "A", RawAmount.num 5⟩] 1).1.map (·.share_cents),
        ∀ t ∈ (compute_shares_and_nets [⟨some "A", RawAmount.num 5⟩] 1).1.map (·.share_cents),
          s - t ≤ 1)) := by
  refine ⟨by simp, ?_, shares_follow_base_remainder_rule _ 1 (by simp) ?_⟩ <;>
    norm_num [compute_shares_and_nets, build_rows, amountsSum, paid_cents_of,
      to_decimal, round_half_up, clean_name]

/-! ### Rounding and clamping facts -/

lemma round_half_up_nonneg {q : ℚ} (h : 0 ≤ q) : 0 ≤ round_half_up q := by
  rw [round_half_up, if_pos h]
  exact Int.le_floor.mpr (by push_cast; linarith)

lemma paid_cents_of_eq (m : ℤ) (x : RawAmount) :
    paid_cents_of m x
      = round_half_up ((if to_decimal x < 0 then 0 else to_decimal x) * (m : ℚ)) := rfl

lemma clamped_nonneg (x : RawAmount) :
    0 ≤ (if to_decimal x < 0 then 0 else to_decimal x) := by
  by_cases h : to_decimal x < 0 <;> simp [h] <;> linarith

lemma paid_cents_of_nonneg {m : ℤ} (hm : 0 ≤ m) (x : RawAmount) :
    0 ≤ paid_cents_of m x := by
  rw [paid_cents_of_eq]
  exact round_half_up_nonneg (mul_nonneg (clamped_nonneg x) (by exact_mod_cast hm))

/-- C6: whenever the clamped amount scaled by the (non-negative) multiplier
lands exactly halfway between two integers, amount normalization rounds up to
the larger integer — half-up, not half-down and not half-to-even. -/
theorem round_half_up_ties_up (m : ℤ) (x : RawAmount) (k : ℤ)
    (hm : 0 ≤ m)
    (hx : (if to_decimal x < 0 then 0 else to_decimal x) * (m : ℚ)
            = (k : ℚ) + 1 / 2) :
    paid_cents_of m x = k + 1 := by
  have hq : 0 ≤ (k : ℚ) + 1 / 2 := by
    rw [← hx]
    exact mul_nonneg (clamped_nonneg x) (by exact_mod_cast hm)
  rw [paid_cents_of_eq, hx, round_half_up, if_pos hq,
    show ((k : ℚ) + 1 / 2) + 1 / 2 = ((k + 1 : ℤ) : ℚ) by push_cast; ring,
    Int.floor_intCast]

/-- Witness for C6: quotient 3/2 (amount 3/4 at multiplier 2) rounds to 2. -/
theorem round_half_up_ties_up_witness :
    (0 : ℤ) ≤ 2 ∧
    (if to_decimal (RawAmount.num (3 / 4)) < 0 then 0
      else to_decimal (RawAmount.num (3 / 4))) * ((2 : ℤ) : ℚ) = ((1 : ℤ) : ℚ) + 1 / 2 ∧
    paid_cents_of 2 (RawAmount.num (3 / 4)) = 1 + 1 :=
  ⟨by norm_num, by norm_num [to_decimal],
    round_half_up_ties_up 2 (RawAmount.num (3 / 4)) 1 (by norm_num)
      (by norm_num [to_decimal])⟩

/-- C7: an unparseable paid value is treated exactly like a parsed zero —
the whole computation returns the same result as with zero, and it returns a
full row per participant (no row aborts the batch). -/
theorem unparseable_defaults_to_zero (pre post : List InputPerson)
    (nm : Option String) (u : ℚ) :
    compute_shares_and_nets (pre ++ ⟨nm, RawAmount.unparseable⟩ :: post) u =
      compute_shares_and_nets (pre ++ ⟨nm, RawAmount.num 0⟩ :: post) u ∧
    (compute_shares_and_nets (pre ++ ⟨nm, RawAmount.unparseable⟩ :: post) u).1.length =
      (pre ++ ⟨nm, RawAmount.unparseable⟩ :: post).length := by
  have hrows : ∀ m : ℤ,
      build_rows (pre ++ ⟨nm, RawAmount.unparseable⟩ :: post) m =
        build_rows (pre ++ ⟨nm, RawAmount.num 0⟩ :: post) m := by
    intro m
    simp only [build_rows, List.map_append, List.map_cons]
    rfl
  constructor
  · simp only [compute_shares_and_nets]
    rw [hrows]
  · rw [compute_shares_and_nets_eq _ u (by simp)]
    simp [List.length_zip, fair_shares_length, build_rows]

/-- C8: a negative supplied amount is clamped to zero before scaling (not an
error), and with a positive rounding unit every `paid_cents` value — and
hence `total_cents` — is non-negative. -/
theorem negative_amounts_clamped (people : List InputPerson) (u : ℚ)
    (hu : 0 < u) :
    (∀ (m : ℤ) (x : RawAmount), to_decimal x < 0 → paid_cents_of m x = 0) ∧
    (∀ r ∈ (compute_shares_and_nets people u).1, 0 ≤ r.paid_cents) ∧
    0 ≤ (compute_shares_and_nets people u).2.1 := by
  have hmul : 0 ≤ round_half_up (1 / u) :=
    round_half_up_nonneg (le_of_lt (by positivity))
  have hrow : ∀ y ∈ (build_rows people (round_half_up (1 / u))).map (·.2), 0 ≤ y := by
    intro y hy
    simp only [build_rows, List.map_map, List.mem_map, Function.comp] at hy
    obtain ⟨p, _, hp⟩ := hy
    rw [← hp]
    exact paid_cents_of_nonneg hmul p.paid
  refine ⟨?_, ?_, ?_⟩
  · intro m x hx
    rw [paid_cents_of_eq, if_pos hx]
    norm_num [round_half_up]
  · intro r hr
    by_cases hp : people = []
    · subst hp
      simp [compute_shares_and_nets, build_rows] at hr
    · rw [compute_shares_and_nets_eq people u hp] at hr
      simp only [List.mem_map] at hr
      obtain ⟨rs, hrs, hmk⟩ := hr
      have : rs.1 ∈ build_rows people (round_half_up (1 / u)) :=
        (List.of_mem_zip hrs).1
      have h2 : rs.1.2 ∈ (build_rows people (round_half_up (1 / u))).map (·.2) :=
        List.mem_map_of_mem _ this
      have := hrow _ h2
      rw [← hmk]
      exact this
  · by_cases hp : people = []
    · subst hp
      simp [compute_shares_and_nets, build_rows]
    · rw [compute_shares_and_nets_eq people u hp]
      exact List.sum_nonneg hrow

/-- Witness for C8 at one participant with a negative amount and unit 1. -/
theorem negative_amounts_clamped_witness :
    (0 : ℚ) < 1 ∧
    ((∀ (m : ℤ) (x : RawAmount), to_decimal x < 0 → paid_cents_of m x = 0) ∧
      (∀ r ∈ (compute_shares_and_nets [⟨some "A", RawAmount.num (-3)⟩] 1).1,
        0 ≤ r.paid_cents) ∧
      0 ≤ (compute_shares_and_nets [⟨some "A", RawAmount.num (-3)⟩] 1).2.1) :=
  ⟨by norm_num, negative_amounts_clamped [⟨some "A", RawAmount.num (-3)⟩] 1 (by norm_num)⟩

/-- C9: the engine — allocation followed by settlement — is deterministic:
two invocations on identical input (same order, names, amounts and rounding
unit) return identical output. -/
theorem engine_deterministic (p₁ p₂ : List InputPerson) (u₁ u₂ : ℚ)
    (hp : p₁ = p₂) (hu : u₁ = u₂) : engine p₁ u₁ = engine p₂ u₂ := by
  subst hp; subst hu; rfl

/-- Witness for C9 at a concrete input. -/
theorem engine_deterministic_witness :
    ([⟨some "A", RawAmount.num 5⟩] : List InputPerson) = [⟨some "A", RawAmount.num 5⟩] ∧
    (1 : ℚ) = 1 ∧
    engine [⟨some "A", RawAmount.num 5⟩] 1 = engine [⟨some "A", RawAmount.num 5⟩] 1 :=
  ⟨rfl, rfl, engine_deterministic _ _ _ _ rfl rfl⟩

/-! ### Settlement bookkeeping lemmas -/

lemma amountsSum_nil : amountsSum ([] : List (String × ℤ)) = 0 := rfl

lemma amountsSum_cons (p : String × ℤ) (l : List (String × ℤ)) :
    amountsSum (p :: l) = p.2 + amountsSum l := by
  simp [amountsSum]

lemma amountsSum_nonneg {l : List (String × ℤ)} (h : ∀ p ∈ l, 0 < p.2) :
    0 ≤ amountsSum l := by
  induction l with
  | nil => simp [amountsSum]
  | cons p l ih =>
    rw [amountsSum_cons]
    have h1 := h p (List.mem_cons_self p l)
    have h2 := ih fun q hq => h q (List.mem_cons_of_mem p hq)
    omega

lemma amountsSum_pos {l : List (String × ℤ)} (h : ∀ p ∈ l, 0 < p.2)
    (hne : l ≠ []) : 0 < amountsSum l := by
  cases l with
  | nil => exact absurd rfl hne
  | cons p l =>
    rw [amountsSum_cons]
    have h1 := h p (List.mem_cons_self p l)
    have h2 := amountsSum_nonneg fun q hq => h q (List.mem_cons_of_mem p hq)
    omega

lemma paidBy_nil (x : String) : paidBy [] x = 0 := rfl

lemma paidBy_cons (t : String × String × ℤ) (ts : List (String × String × ℤ))
    (x : String) :
    paidBy (t :: ts) x = (if t.1 = x then t.2.2 else 0) + paidBy ts x := by
  by_cases h : t.1 = x <;> simp [paidBy, List.filter_cons, h]

lemma recvBy_nil (x : String) : recvBy [] x = 0 := rfl

lemma recvBy_cons (t : String × String × ℤ) (ts : List (String × String × ℤ))
    (x : String) :
    recvBy (t :: ts) x = (if t.2.1 = x then t.2.2 else 0) + recvBy ts x := by
  by_cases h : t.2.1 = x <;> simp [recvBy, List.filter_cons, h]

lemma owedTo_nil (x : String) : owedTo [] x = 0 := rfl

lemma owedTo_cons (p : String × ℤ) (l : List (String × ℤ)) (x : String) :
    owedTo (p :: l) x = (if p.1 = x then p.2 else 0) + owedTo l x := by
  by_cases h : p.1 = x <;> simp [owedTo, List.filter_cons, h]

lemma debtorsOf_pos (rows : List Row) : ∀ p ∈ debtorsOf rows, 0 < p.2 := by
  intro p hp
  simp only [debtorsOf, List.mem_filterMap] at hp
  obtain ⟨r, _, hif⟩ := hp
  by_cases h : r.net_cents < 0
  · rw [if_pos h, Option.some.injEq] at hif
    rw [← hif]
    omega
  · rw [if_neg h] at hif
    exact absurd hif (by simp)

lemma creditorsOf_pos (rows : List Row) : ∀ p ∈ creditorsOf rows, 0 < p.2 := by
  intro p hp
  simp only [creditorsOf, List.mem_filterMap] at hp
  obtain ⟨r, _, hif⟩ := hp
  by_cases h : 0 < r.net_cents
  · rw [if_pos h, Option.some.injEq] at hif
    rw [← hif]
    omega
  · rw [if_neg h] at hif
    exact absurd hif (by simp)

lemma debtorsOf_cons_neg {r : Row} (h : r.net_cents < 0) (rs : List Row) :
    debtorsOf (r :: rs) = (r.name, -r.net_cents) :: debtorsOf rs := by
  simp [debtorsOf, List.filterMap_cons, h]

lemma debtorsOf_cons_nonneg {r : Row} (h : ¬ r.net_cents < 0) (rs : List Row) :
    debtorsOf (r :: rs) = debtorsOf rs := by
  simp [debtorsOf, List.filterMap_cons, h]

lemma creditorsOf_cons_pos {r : Row} (h : 0 < r.net_cents) (rs : List Row) :
    creditorsOf (r :: rs) = (r.name, r.net_cents) :: creditorsOf rs := by
  simp [creditorsOf, List.filterMap_cons, h]

lemma creditorsOf_cons_nonpos {r : Row} (h : ¬ 0 < r.net_cents) (rs : List Row) :
    creditorsOf (r :: rs) = creditorsOf rs := by
  simp [creditorsOf, List.filterMap_cons, h]

lemma initBalance_cons (r : Row) (rs : List Row) (x : String) :
    initBalance (r :: rs) x
      = (if r.name = x then r.net_cents else 0) + initBalance rs x := by
  by_cases h : r.name = x <;> simp [initBalance, List.filter_cons, h]

/-- The sum of the nets equals total credit minus total debt. -/
lemma partition_net_sum (rows : List Row) :
    (rows.map (·.net_cents)).sum
      = amountsSum (creditorsOf rows) - amountsSum (debtorsOf rows) := by
  induction rows with
  | nil => simp [debtorsOf, creditorsOf, amountsSum]
  | cons r rs ih =>
    rw [List.map_cons, List.sum_cons]
    rcases lt_trichotomy r.net_cents 0 with h | h | h
    · rw [debtorsOf_cons_neg h, creditorsOf_cons_nonpos (by omega), amountsSum_cons]
      dsimp only
      omega
    · rw [debtorsOf_cons_nonneg (by omega), creditorsOf_cons_nonpos (by omega)]
      omega
    · rw [debtorsOf_cons_nonneg (by omega), creditorsOf_cons_pos h, amountsSum_cons]
      dsimp only
      omega

/-- The initial balance of a name splits over the two partitions. -/
lemma initBalance_eq (rows : List Row) (x : String) :
    initBalance rows x
      = owedTo (creditorsOf rows) x - owedTo (debtorsOf rows) x := by
  induction rows with
  | nil => simp [initBalance, debtorsOf, creditorsOf, owedTo]
  | cons r rs ih =>
    rw [initBalance_cons]
    rcases lt_trichotomy r.net_cents 0 with h | h | h
    · rw [debtorsOf_cons_neg h, creditorsOf_cons_nonpos (by omega), owedTo_cons]
      dsimp only
      by_cases hx : r.name = x <;> simp only [hx, if_true, if_false] <;> omega
    · rw [debtorsOf_cons_nonneg (by omega), creditorsOf_cons_nonpos (by omega)]
      by_cases hx : r.name = x <;> simp only [hx, if_true, if_false] <;> omega
    · rw [debtorsOf_cons_nonneg (by omega), creditorsOf_cons_pos h, owedTo_cons]
      dsimp only
      by_cases hx : r.name = x <;> simp only [hx, if_true, if_false] <;> omega

/-- Loop invariant of the settlement loop: with positive entries and equal
totals on both sides, every name pays out exactly its total debt and
receives exactly its total credit. -/
lemma settleLoop_paid_recv :
    ∀ (D C : List (String × ℤ)),
      (∀ p ∈ D, 0 < p.2) → (∀ p ∈ C, 0 < p.2) →
      amountsSum D = amountsSum C →
      ∀ x, paidBy (settleLoop D C) x = owedTo D x ∧
           recvBy (settleLoop D C) x = owedTo C x := by
  intro D C
  induction D, C using settleLoop.induct with
  | case1 C =>
    intro _ hC hsum x
    have hC0 : C = [] := by
      by_contra hne
      have := amountsSum_pos hC hne
      rw [amountsSum_nil] at hsum
      omega
    subst hC0
    simp [settleLoop, paidBy, recvBy, owedTo]
  | case2 d ds =>
    intro hD _ hsum x
    exfalso
    have := amountsSum_pos hD (by simp)
    rw [amountsSum_nil] at hsum
    omega
  | case3 d_name d_amt ds c_name c_amt cs pay hle heq ih =>
    intro hD hC hsum x
    have hpd : pay = d_amt ⊓ c_amt := rfl
    rw [hpd] at heq
    have hda : 0 < d_amt := hD _ (List.mem_cons_self _ _)
    have hca : 0 < c_amt := hC _ (List.mem_cons_self _ _)
    have hmin : d_amt ⊓ c_amt = d_amt := min_eq_left hle
    have hcd : c_amt = d_amt := by omega
    have hpay : 0 < d_amt ⊓ c_amt := by omega
    rw [amountsSum_cons, amountsSum_cons] at hsum
    obtain ⟨ih1, ih2⟩ := ih
      (fun p hp => hD p (List.mem_cons_of_mem _ hp))
      (fun p hp => hC p (List.mem_cons_of_mem _ hp))
      (by dsimp only at hsum; omega) x
    simp only [settleLoop, hle, if_true, heq, hpay, List.singleton_append]
    rw [paidBy_cons, recvBy_cons, ih1, ih2, owedTo_cons, owedTo_cons]
    constructor
    · dsimp only
      by_cases hx : d_name = x <;> simp [hx, hmin]
    · dsimp only
      by_cases hx : c_name = x <;> simp [hx, hmin, hcd]
  | case4 d_name d_amt ds c_name c_amt cs pay hle hne ih =>
    intro hD hC hsum x
    have hpd : pay = d_amt ⊓ c_amt := rfl
    rw [hpd] at hne ih
    have hda : 0 < d_amt := hD _ (List.mem_cons_self _ _)
    have hca : 0 < c_amt := hC _ (List.mem_cons_self _ _)
    have hmin : d_amt ⊓ c_amt = d_amt := min_eq_left hle
    have hlt : d_amt < c_amt := by omega
    have hpay : 0 < d_amt ⊓ c_amt := by omega
    rw [amountsSum_cons, amountsSum_cons] at hsum
    obtain ⟨ih1, ih2⟩ := ih
      (fun p hp => hD p (List.mem_cons_of_mem _ hp))
      (by
        intro p hp
        rcases List.mem_cons.mp hp with h | h
        · rw [h]; dsimp only; omega
        · exact hC p (List.mem_cons_of_mem _ h))
      (by
        rw [amountsSum_cons]
        dsimp only at hsum ⊢
        omega) x
    simp only [settleLoop, hle, if_true, hne, if_false, hpay, List.singleton_append]
    rw [paidBy_cons, recvBy_cons, ih1, ih2, owedTo_cons, owedTo_cons, owedTo_cons]
    constructor
    · dsimp only
      by_cases hx : d_name = x <;> simp [hx, hmin]
    · dsimp only
      by_cases hx : c_name = x <;> simp [hx, hmin] <;> omega
  | case5 d_name d_amt ds c_name c_amt cs pay hle ih =>
    intro hD hC hsum x
    have hpd : pay = d_amt ⊓ c_amt := rfl
    rw [hpd] at ih
    have hda : 0 < d_amt := hD _ (List.mem_cons_self _ _)
    have hca : 0 < c_amt := hC _ (List.mem_cons_self _ _)
    have hmin : d_amt ⊓ c_amt = c_amt := min_eq_right (by omega)
    have hpay : 0 < d_amt ⊓ c_amt := by omega
    rw [amountsSum_cons, amountsSum_cons] at hsum
    obtain ⟨ih1, ih2⟩ := ih
      (by
        intro p hp
        rcases List.mem_cons.mp hp with h | h
        · rw [h]; dsimp only; omega
        · exact hD p (List.mem_cons_of_mem _ h))
      (fun p hp => hC p (List.mem_cons_of_mem _ hp))
      (by
        rw [amountsSum_cons]
        dsimp only at hsum ⊢
        omega) x
    simp only [settleLoop, hle, if_true, if_false, hpay, List.singleton_append]
    rw [paidBy_cons, recvBy_cons, ih1, ih2, owedTo_cons, owedTo_cons, owedTo_cons]
    constructor
    · dsimp only
      by_cases hx : d_name = x <;> simp [hx, hmin] <;> omega
    · dsimp only
      by_cases hx : c_name = x <;> simp [hx, hmin]

/-- Applying a transfer list moves the balance of each name by what it pays
out minus what it receives. -/
lemma applyTransfers_eq (ts : List (String × String × ℤ)) (f : String → ℤ)
    (x : String) :
    applyTransfers ts f x = f x + paidBy ts x - recvBy ts x := by
  induction ts generalizing f with
  | nil => simp [applyTransfers, paidBy, recvBy]
  | cons t ts ih =>
    show (ts.foldl applyTransfer (applyTransfer f t)) x = _
    rw [show ts.foldl applyTransfer (applyTransfer f t)
        = applyTransfers ts (applyTransfer f t) from rfl]
    rw [ih (applyTransfer f t), paidBy_cons, recvBy_cons, applyTransfer]
    ring

/-- C2 (amended direction): whenever the nets sum to zero, applying every
transfer produced by `settle_transfers` — the net of the debtor rising by
the amount, the net of the creditor falling by it — leaves every name with balance
exactly zero. -/
theorem settlement_zeroes_balances (rows : List Row)
    (h : (rows.map (·.net_cents)).sum = 0) :
    ∀ x, applyTransfers (settle_transfers rows) (initBalance rows) x = 0 := by
  intro x
  have hD := debtorsOf_pos rows
  have hC := creditorsOf_pos rows
  have hsum : amountsSum (debtorsOf rows) = amountsSum (creditorsOf rows) := by
    have hps := partition_net_sum rows
    rw [h] at hps
    omega
  obtain ⟨hpaid, hrecv⟩ :=
    settleLoop_paid_recv (debtorsOf rows) (creditorsOf rows) hD hC hsum x
  rw [applyTransfers_eq, initBalance_eq]
  simp only [settle_transfers]
  rw [hpaid, hrecv]
  ring

/-- Witness for the amended C2 statement at a two-person ledger. -/
theorem settlement_zeroes_balances_witness :
    (([⟨"a", 0, 1, -1⟩, ⟨"b", 2, 1, 1⟩] : List Row).map (·.net_cents)).sum = 0 ∧
    ∀ x, applyTransfers (settle_transfers [⟨"a", 0, 1, -1⟩, ⟨"b", 2, 1, 1⟩])
        (initBalance [⟨"a", 0, 1, -1⟩, ⟨"b", 2, 1, 1⟩]) x = 0 :=
  ⟨by decide, settlement_zeroes_balances [⟨"a", 0, 1, -1⟩, ⟨"b", 2, 1, 1⟩] (by decide)⟩

/-- C2 as literally worded is false: subtracting each transfer amount from
the net of the debtor and adding it to the net of the creditor does not zero the
balances — at nets `[-1, +1]` the single transfer `(a, b, 1)` drives `a`
to `-2`. -/
theorem settlement_spec_direction_counterexample :
    (([⟨"a", 0, 1, -1⟩, ⟨"b", 2, 1, 1⟩] : List Row).map (·.net_cents)).sum = 0 ∧
    applyTransfersSpec (settle_transfers [⟨"a", 0, 1, -1⟩, ⟨"b", 2, 1, 1⟩])
        (initBalance [⟨"a", 0, 1, -1⟩, ⟨"b", 2, 1, 1⟩]) "a" ≠ 0 := by
  have hd : debtorsOf ([⟨"a", 0, 1, -1⟩, ⟨"b", 2, 1, 1⟩] : List Row) = [("a", 1)] := by
    decide
  have hc : creditorsOf ([⟨"a", 0, 1, -1⟩, ⟨"b", 2, 1, 1⟩] : List Row) = [("b", 1)] := by
    decide
  have hib : initBalance ([⟨"a", 0, 1, -1⟩, ⟨"b", 2, 1, 1⟩] : List Row) "a" = -1 := by
    decide
  have hst : settle_transfers [⟨"a", 0, 1, -1⟩, ⟨"b", 2, 1, 1⟩] = [("a", "b", 1)] := by
    rw [settle_transfers, hd, hc]
    simp [settleLoop]
  refine ⟨by decide, ?_⟩
  rw [hst]
  simp [applyTransfersSpec, applyTransferSpec, hib]

/-- Each iteration of the loop records at most one transfer, and the loop
makes at most `|D| + |C| - 1` iterations. -/
lemma settleLoop_length :
    ∀ (D C : List (String × ℤ)),
      (settleLoop D C).length ≤ D.length + C.length - 1 := by
  intro D C
  induction D, C using settleLoop.induct with
  | case1 C => simp [settleLoop]
  | case2 d ds => simp [settleLoop]
  | case3 dn da ds cn ca cs pay hle heq ih =>
    have hpd : pay = da ⊓ ca := rfl
    rw [hpd] at heq
    simp only [settleLoop, hle, if_true, heq]
    have hr : (if 0 < da ⊓ ca then [(dn, cn, da ⊓ ca)] else []).length ≤ 1 := by
      split <;> simp
    rw [List.length_append]
    simp only [List.length_cons]
    omega
  | case4 dn da ds cn ca cs pay hle hne ih =>
    have hpd : pay = da ⊓ ca := rfl
    rw [hpd] at hne ih
    simp only [settleLoop, hle, if_true, hne, if_false]
    have hr : (if 0 < da ⊓ ca then [(dn, cn, da ⊓ ca)] else []).length ≤ 1 := by
      split <;> simp
    rw [List.length_append]
    simp only [List.length_cons] at ih ⊢
    omega
  | case5 dn da ds cn ca cs pay hle ih =>
    have hpd : pay = da ⊓ ca := rfl
    rw [hpd] at ih
    simp only [settleLoop, hle, if_false]
    have hr : (if 0 < da ⊓ ca then [(dn, cn, da ⊓ ca)] else []).length ≤ 1 := by
      split <;> simp
    rw [List.length_append]
    simp only [List.length_cons] at ih ⊢
    omega

/-- Every recorded transfer has a strictly positive amount. -/
lemma settleLoop_pos :
    ∀ (D C : List (String × ℤ)) (t : String × String × ℤ),
      t ∈ settleLoop D C → 0 < t.2.2 := by
  intro D C
  induction D, C using settleLoop.induct with
  | case1 C => intro t ht; simp [settleLoop] at ht
  | case2 d ds => intro t ht; simp [settleLoop] at ht
  | case3 dn da ds cn ca cs pay hle heq ih =>
    intro t ht
    have hpd : pay = da ⊓ ca := rfl
    rw [hpd] at heq
    simp only [settleLoop, hle, if_true, heq, List.mem_append] at ht
    rcases ht with hrec | hrest
    · by_cases hp : 0 < da ⊓ ca
      · rw [if_pos hp] at hrec
        simp only [List.mem_singleton] at hrec
        subst hrec
        simpa using hp
      · rw [if_neg hp] at hrec
        simp at hrec
    · exact ih t hrest
  | case4 dn da ds cn ca cs pay hle hne ih =>
    intro t ht
    have hpd : pay = da ⊓ ca := rfl
    rw [hpd] at hne ih
    simp only [settleLoop, hle, if_true, hne, if_false, List.mem_append] at ht
    rcases ht with hrec | hrest
    · by_cases hp : 0 < da ⊓ ca
      · rw [if_pos hp] at hrec
        simp only [List.mem_singleton] at hrec
        subst hrec
        simpa using hp
      · rw [if_neg hp] at hrec
        simp at hrec
    · exact ih t hrest
  | case5 dn da ds cn ca cs pay hle ih =>
    intro t ht
    have hpd : pay = da ⊓ ca := rfl
    rw [hpd] at ih
    simp only [settleLoop, hle, if_false, List.mem_append] at ht
    rcases ht with hrec | hrest
    · by_cases hp : 0 < da ⊓ ca
      · rw [if_pos hp] at hrec
        simp only [List.mem_singleton] at hrec
        subst hrec
        simpa using hp
      · rw [if_neg hp] at hrec
        simp at hrec
    · exact ih t hrest

/-- Transfer endpoints come from the names in the corresponding partitions. -/
lemma settleLoop_names :
    ∀ (D C : List (String × ℤ)) (t : String × String × ℤ),
      t ∈ settleLoop D C →
      t.1 ∈ D.map (·.1) ∧ t.2.1 ∈ C.map (·.1) := by
  intro D C
  induction D, C using settleLoop.induct with
  | case1 C => intro t ht; simp [settleLoop] at ht
  | case2 d ds => intro t ht; simp [settleLoop] at ht
  | case3 dn da ds cn ca cs pay hle heq ih =>
    intro t ht
    have hpd : pay = da ⊓ ca := rfl
    rw [hpd] at heq
    simp only [settleLoop, hle, if_true, heq, List.mem_append] at ht
    simp only [List.map_cons]
    rcases ht with hrec | hrest
    · rcases Decidable.em (0 < da ⊓ ca) with hp | hp
      · rw [if_pos hp] at hrec
        simp only [List.mem_singleton] at hrec
        subst hrec
        exact ⟨List.mem_cons_self _ _, List.mem_cons_self _ _⟩
      · rw [if_neg hp] at hrec
        simp at hrec
    · obtain ⟨h1, h2⟩ := ih t hrest
      exact ⟨List.mem_cons_of_mem _ h1, List.mem_cons_of_mem _ h2⟩
  | case4 dn da ds cn ca cs pay hle hne ih =>
    intro t ht
    have hpd : pay = da ⊓ ca := rfl
    rw [hpd] at hne ih
    simp only [settleLoop, hle, if_true, hne, if_false, List.mem_append] at ht
    simp only [List.map_cons]
    rcases ht with hrec | hrest
    · rcases Decidable.em (0 < da ⊓ ca) with hp | hp
      · rw [if_pos hp] at hrec
        simp only [List.mem_singleton] at hrec
        subst hrec
        exact ⟨List.mem_cons_self _ _, List.mem_cons_self _ _⟩
      · rw [if_neg hp] at hrec
        simp at hrec
    · obtain ⟨h1, h2⟩ := ih t hrest
      simp only [List.map_cons] at h2
      exact ⟨List.mem_cons_of_mem _ h1, h2⟩
  | case5 dn da ds cn ca cs pay hle ih =>
    intro t ht
    have hpd : pay = da ⊓ ca := rfl
    rw [hpd] at ih
    simp only [settleLoop, hle, if_false, List.mem_append] at ht
    simp only [List.map_cons]
    rcases ht with hrec | hrest
    · rcases Decidable.em (0 < da ⊓ ca) with hp | hp
      · rw [if_pos hp] at hrec
        simp only [List.mem_singleton] at hrec
        subst hrec
        exact ⟨List.mem_cons_self _ _, List.mem_cons_self _ _⟩
      · rw [if_neg hp] at hrec
        simp at hrec
    · obtain ⟨h1, h2⟩ := ih t hrest
      simp only [List.map_cons] at h1
      exact ⟨h1, List.mem_cons_of_mem _ h2⟩

lemma mem_debtorsOf_names {rows : List Row} {x : String}
    (h : x ∈ (debtorsOf rows).map (·.1)) :
    ∃ r ∈ rows, r.name = x ∧ r.net_cents < 0 := by
  simp only [List.mem_map] at h
  obtain ⟨p, hp, hpx⟩ := h
  simp only [debtorsOf, List.mem_filterMap] at hp
  obtain ⟨r, hr, hif⟩ := hp
  by_cases hneg : r.net_cents < 0
  · rw [if_pos hneg, Option.some.injEq] at hif
    refine ⟨r, hr, ?_, hneg⟩
    rw [← hif] at hpx
    simpa using hpx
  · rw [if_neg hneg] at hif
    exact absurd hif (by simp)

lemma mem_creditorsOf_names {rows : List Row} {x : String}
    (h : x ∈ (creditorsOf rows).map (·.1)) :
    ∃ r ∈ rows, r.name = x ∧ 0 < r.net_cents := by
  simp only [List.mem_map] at h
  obtain ⟨p, hp, hpx⟩ := h
  simp only [creditorsOf, List.mem_filterMap] at hp
  obtain ⟨r, hr, hif⟩ := hp
  by_cases hpos : 0 < r.net_cents
  · rw [if_pos hpos, Option.some.injEq] at hif
    refine ⟨r, hr, ?_, hpos⟩
    rw [← hif] at hpx
    simpa using hpx
  · rw [if_neg hpos] at hif
    exact absurd hif (by simp)

/-- C4: with zero-sum nets the number of transfers is at most
`(debtors + creditors − 1)`, every transfer amount is strictly positive, and
each transfer endpoint is the name of a strictly negative (resp. strictly
positive) net row — so zero-net participants appear in no transfer. -/
theorem settlement_bound_and_positivity (rows : List Row)
    (h : (rows.map (·.net_cents)).sum = 0) :
    (settle_transfers rows).length
        ≤ (debtorsOf rows).length + (creditorsOf rows).length - 1 ∧
    (∀ t ∈ settle_transfers rows, 0 < t.2.2) ∧
    (∀ t ∈ settle_transfers rows,
      (∃ r ∈ rows, r.name = t.1 ∧ r.net_cents < 0) ∧
      ∃ r ∈ rows, r.name = t.2.1 ∧ 0 < r.net_cents) := by
  refine ⟨settleLoop_length _ _, fun t ht => settleLoop_pos _ _ t ht,
    fun t ht => ?_⟩
  obtain ⟨h1, h2⟩ := settleLoop_names _ _ t ht
  exact ⟨mem_debtorsOf_names h1, mem_creditorsOf_names h2⟩

/-- Witness for C4 at a two-person ledger. -/
theorem settlement_bound_and_positivity_witness :
    (([⟨"a", 0, 1, -1⟩, ⟨"b", 2, 1, 1⟩] : List Row).map (·.net_cents)).sum = 0 ∧
    ((settle_transfers [⟨"a", 0, 1, -1⟩, ⟨"b", 2, 1, 1⟩]).length
        ≤ (debtorsOf [⟨"a", 0, 1, -1⟩, ⟨"b", 2, 1, 1⟩]).length
          + (creditorsOf [⟨"a", 0, 1, -1⟩, ⟨"b", 2, 1, 1⟩]).length - 1 ∧
      (∀ t ∈ settle_transfers [⟨"a", 0, 1, -1⟩, ⟨"b", 2, 1, 1⟩], 0 < t.2.2) ∧
      (∀ t ∈ settle_transfers [⟨"a", 0, 1, -1⟩, ⟨"b", 2, 1, 1⟩],
        (∃ r ∈ ([⟨"a", 0, 1, -1⟩, ⟨"b", 2, 1, 1⟩] : List Row),
          r.name = t.1 ∧ r.net_cents < 0) ∧
        ∃ r ∈ ([⟨"a", 0, 1, -1⟩, ⟨"b", 2, 1, 1⟩] : List Row),
          r.name = t.2.1 ∧ 0 < r.net_cents)) :=
  ⟨by decide,
    settlement_bound_and_positivity [⟨"a", 0, 1, -1⟩, ⟨"b", 2, 1, 1⟩] (by decide)⟩

/-- The recorded transfer amounts always total exactly
`min(total debt, total credit)`: the loop settles as much as the smaller
side allows and then simply stops. -/
lemma settleLoop_sum_min :
    ∀ (D C : List (String × ℤ)),
      (∀ p ∈ D, 0 < p.2) → (∀ p ∈ C, 0 < p.2) →
      ((settleLoop D C).map (·.2.2)).sum = min (amountsSum D) (amountsSum C) := by
  intro D C
  induction D, C using settleLoop.induct with
  | case1 C =>
    intro _ hC
    have := amountsSum_nonneg hC
    simp only [settleLoop, List.map_nil, List.sum_nil, amountsSum_nil]
    omega
  | case2 d ds =>
    intro hD _
    have := amountsSum_nonneg hD
    simp only [settleLoop, List.map_nil, List.sum_nil, amountsSum_nil]
    omega
  | case3 dn da ds cn ca cs pay hle heq ih =>
    intro hD hC
    have hpd : pay = da ⊓ ca := rfl
    rw [hpd] at heq
    have hda : 0 < da := hD _ (List.mem_cons_self _ _)
    have hca : 0 < ca := hC _ (List.mem_cons_self _ _)
    have hpay : 0 < da ⊓ ca := by omega
    have ihe := ih (fun p hp => hD p (List.mem_cons_of_mem _ hp))
      (fun p hp => hC p (List.mem_cons_of_mem _ hp))
    simp only [settleLoop, hle, if_true, heq, hpay, List.singleton_append,
      List.map_cons, List.sum_cons]
    rw [ihe]
    simp only [amountsSum_cons]
    omega
  | case4 dn da ds cn ca cs pay hle hne ih =>
    intro hD hC
    have hpd : pay = da ⊓ ca := rfl
    rw [hpd] at hne ih
    have hda : 0 < da := hD _ (List.mem_cons_self _ _)
    have hca : 0 < ca := hC _ (List.mem_cons_self _ _)
    have hpay : 0 < da ⊓ ca := by omega
    have ihe := ih (fun p hp => hD p (List.mem_cons_of_mem _ hp))
      (by
        intro p hp
        rcases List.mem_cons.mp hp with hh | hh
        · rw [hh]; dsimp only; omega
        · exact hC p (List.mem_cons_of_mem _ hh))
    simp only [settleLoop, hle, if_true, hne, if_false, hpay,
      List.singleton_append, List.map_cons, List.sum_cons]
    rw [ihe]
    simp only [amountsSum_cons]
    omega
  | case5 dn da ds cn ca cs pay hle ih =>
    intro hD hC
    have hpd : pay = da ⊓ ca := rfl
    rw [hpd] at ih
    have hda : 0 < da := hD _ (List.mem_cons_self _ _)
    have hca : 0 < ca := hC _ (List.mem_cons_self _ _)
    have hpay : 0 < da ⊓ ca := by omega
    have ihe := ih
      (by
        intro p hp
        rcases List.mem_cons.mp hp with hh | hh
        · rw [hh]; dsimp only; omega
        · exact hD p (List.mem_cons_of_mem _ hh))
      (fun p hp => hC p (List.mem_cons_of_mem _ hp))
    simp only [settleLoop, hle, if_true, if_false, hpay,
      List.singleton_append, List.map_cons, List.sum_cons]
    rw [ihe]
    simp only [amountsSum_cons]
    omega

/-- C5 (amended): `settle_transfers` contains no zero-sum check and signals
nothing: on every input it returns a plain transfer list totalling
`min(total debt, total credit)`, and the nets sum to credit minus debt — so
a non-zero net sum means the longer side is silently left unsettled. -/
theorem settle_silent_on_imbalance (rows : List Row) :
    ((settle_transfers rows).map (·.2.2)).sum
      = min (amountsSum (debtorsOf rows)) (amountsSum (creditorsOf rows)) ∧
    (rows.map (·.net_cents)).sum
      = amountsSum (creditorsOf rows) - amountsSum (debtorsOf rows) :=
  ⟨settleLoop_sum_min (debtorsOf rows) (creditorsOf rows) (debtorsOf_pos rows)
      (creditorsOf_pos rows),
    partition_net_sum rows⟩

/-- C5 as stated is false: on a lone debtor (net sum `-5 ≠ 0`) the code
raises nothing — it returns the ordinary value `[]`, leaving the balance of
the debtor at `-5`. -/
theorem settle_no_zero_sum_check_counterexample :
    (([⟨"a", 0, 5, -5⟩] : List Row).map (·.net_cents)).sum ≠ 0 ∧
    settle_transfers [⟨"a", 0, 5, -5⟩] = [] ∧
    applyTransfers (settle_transfers [⟨"a", 0, 5, -5⟩])
        (initBalance [⟨"a", 0, 5, -5⟩]) "a" = -5 := by
  have hd : debtorsOf ([⟨"a", 0, 5, -5⟩] : List Row) = [("a", 5)] := by decide
  have hc : creditorsOf ([⟨"a", 0, 5, -5⟩] : List Row) = [] := by decide
  have hst : settle_transfers [⟨"a", 0, 5, -5⟩] = [] := by
    rw [settle_transfers, hd, hc]
    simp [settleLoop]
  refine ⟨by decide, hst, ?_⟩
  rw [hst]
  show initBalance [⟨"a", 0, 5, -5⟩] "a" = -5
  decide

/-- Fuel `|D| + |C|` always suffices for the settlement loop: each iteration
advances at least one cursor. -/
lemma settleLoopFuel_spec :
    ∀ (fuel : ℕ) (D C : List (String × ℤ)),
      D.length + C.length ≤ fuel →
      settleLoopFuel fuel D C = some (settleLoop D C) := by
  intro fuel
  induction fuel with
  | zero =>
    intro D C h
    cases D with
    | nil => simp [settleLoopFuel, settleLoop]
    | cons d ds => simp at h
  | succ fuel ih =>
    intro D C h
    cases D with
    | nil => simp [settleLoopFuel, settleLoop]
    | cons d ds =>
      cases C with
      | nil => simp [settleLoopFuel, settleLoop]
      | cons c cs =>
        obtain ⟨dn, da⟩ := d
        obtain ⟨cn, ca⟩ := c
        simp only [List.length_cons] at h
        by_cases h1 : da ≤ ca
        · by_cases h2 : ca - da ⊓ ca = 0
          · simp only [settleLoopFuel, settleLoop, h1, h2, if_true]
            rw [ih ds cs (by omega)]
            simp
          · simp only [settleLoopFuel, settleLoop, h1, h2, if_true, if_false]
            rw [ih ds ((cn, ca - da ⊓ ca) :: cs) (by simp only [List.length_cons]; omega)]
            simp
        · simp only [settleLoopFuel, settleLoop, h1, if_false]
          rw [ih ((dn, da - da ⊓ ca) :: ds) cs (by simp only [List.length_cons]; omega)]
          simp

/-- C10: the settlement loop terminates for every input — zero-sum or not —
within `len(debtors) + len(creditors)` iterations, and in particular records
no more transfers than that. -/
theorem settle_loop_terminates (rows : List Row) :
    settleLoopFuel ((debtorsOf rows).length + (creditorsOf rows).length)
        (debtorsOf rows) (creditorsOf rows) = some (settle_transfers rows) ∧
    (settle_transfers rows).length
      ≤ (debtorsOf rows).length + (creditorsOf rows).length :=
  ⟨settleLoopFuel_spec _ _ _ le_rfl,
    le_trans (settleLoop_length _ _) (Nat.sub_le _ _)⟩

end EqualShare
